import Mathlib

/-!
Verification of the tiling / graph-lowering pass of
`hwacctools/comp_graph/splitter.py` and `hwacctools/comp_graph/compute.py`.

Numpy 2-d arrays are shallowly embedded as `NPMatrix`: an explicit shape
`(shape0, shape1)` together with row-major data.  Keeping the shape explicit
mirrors numpy, where a `(0, n)` array still remembers `n` columns; plain
`List (List Int)` would lose that.  Basic numpy slicing `a[x:y]` clamps the
bounds to the array length, which `List.drop`/`List.take` reproduce exactly.
-/

namespace HwAcc

/-- Shallow embedding of a numpy 2-d array: explicit shape plus row-major data. -/
structure NPMatrix where
  shape0 : Nat
  shape1 : Nat
  data : List (List Int)
deriving Repr, DecidableEq

/-- A matrix is well formed when its data really has its declared shape. -/
def NPMatrix.WF (m : NPMatrix) : Prop :=
  m.data.length = m.shape0 ∧ ∀ row ∈ m.data, row.length = m.shape1

instance (m : NPMatrix) : Decidable m.WF := by
  unfold NPMatrix.WF; infer_instance

def npShape (m : NPMatrix) : Nat × Nat := (m.shape0, m.shape1)

def npZero : NPMatrix := ⟨0, 0, []⟩

/-- Numpy column slice `m[:, a:b]` (bounds clamp to the array's extent). -/
def sliceCols (m : NPMatrix) (a b : Nat) : NPMatrix :=
  ⟨m.shape0, min b m.shape1 - min a m.shape1,
   m.data.map (fun row => (row.drop a).take (b - a))⟩

/-- Numpy row slice `m[a:b]` (bounds clamp to the array's extent). -/
def sliceRows (m : NPMatrix) (a b : Nat) : NPMatrix :=
  ⟨min b m.shape0 - min a m.shape0, m.shape1, (m.data.drop a).take (b - a)⟩

/-- The ceiling count `n//d + (n%d != 0)` used by the splitter source. -/
def ceilReps (n d : Nat) : Nat := n / d + if n % d ≠ 0 then 1 else 0

/-- Column phase of `split_matrix_into_chunks`: split into groups of width at
most `W` (the source's first loop). -/
def splitColsNP (m : NPMatrix) (W : Nat) : List NPMatrix :=
  if m.shape1 > W then
    (List.range (ceilReps m.shape1 W)).map (fun i => sliceCols m (W * i) (W * i + W))
  else [m]

/-- Row phase of `split_matrix_into_chunks`: split one column group into
groups of height at most `H` (the source's second loop). -/
def splitRowsNP (m : NPMatrix) (H : Nat) : List NPMatrix :=
  if m.shape0 > H then
    (List.range (ceilReps m.shape0 H)).map (fun j => sliceRows m (H * j) (H * j + H))
  else [m]

/-- `split_matrix_into_chunks(matrix, H, W)` from `splitter.py`: columns are
split into groups of width ≤ W, then each group's rows into groups of
height ≤ H.  Outer index = column group, inner index = row group. -/
def split_matrix_into_chunks (m : NPMatrix) (H W : Nat) : List (List NPMatrix) :=
  (splitColsNP m W).map (fun mat => splitRowsNP mat H)

/-- `np.empty(shape)` for a 2-d shape: the element values are irrelevant
(only the shape is ever read), modelled as zeros. -/
def npEmpty (shape : Nat × Nat) : NPMatrix :=
  ⟨shape.1, shape.2, List.replicate shape.1 (List.replicate shape.2 0)⟩

/-- `split_shape_into_chunks(shape, H, W)` from `splitter.py`: materialize an
empty matrix of the given shape, run the same splitting code, and read the
`.shape` off every chunk. -/
def split_shape_into_chunks (shape : Nat × Nat) (H W : Nat) : List (List (Nat × Nat)) :=
  (split_matrix_into_chunks (npEmpty shape) H W).map (fun col => col.map npShape)

/-- Vertical (row-wise) concatenation of two matrices. -/
def vconcat2 (a b : NPMatrix) : NPMatrix :=
  ⟨a.shape0 + b.shape0, a.shape1, a.data ++ b.data⟩

/-- Horizontal (column-wise) concatenation of two matrices. -/
def hconcat2 (a b : NPMatrix) : NPMatrix :=
  ⟨a.shape0, a.shape1 + b.shape1, List.zipWith (· ++ ·) a.data b.data⟩

/-- Vertical concatenation of a list of matrices (empty list gives the
empty matrix; never used on an empty list by the reassembly statement). -/
def vconcatList : List NPMatrix → NPMatrix
  | [] => npZero
  | [m] => m
  | m :: m' :: ms => vconcat2 m (vconcatList (m' :: ms))

/-- Horizontal concatenation of a list of matrices. -/
def hconcatList : List NPMatrix → NPMatrix
  | [] => npZero
  | [m] => m
  | m :: m' :: ms => hconcat2 m (hconcatList (m' :: ms))

/-! Shape parity between `split_shape_into_chunks` and `split_matrix_into_chunks`. -/

theorem splitRows_shapes_congr (mat mat' : NPMatrix) (H : Nat)
    (h0 : mat.shape0 = mat'.shape0) (h1 : mat.shape1 = mat'.shape1) :
    (splitRowsNP mat H).map npShape = (splitRowsNP mat' H).map npShape := by
  simp only [splitRowsNP, h0]
  by_cases h : mat'.shape0 > H
  · simp [if_pos h, List.map_map, Function.comp, npShape, sliceRows, h0, h1]
  · simp [if_neg h, npShape, h0, h1]

theorem split_matrix_shapes_congr (m m' : NPMatrix) (H W : Nat)
    (h0 : m.shape0 = m'.shape0) (h1 : m.shape1 = m'.shape1) :
    (split_matrix_into_chunks m H W).map (List.map npShape)
      = (split_matrix_into_chunks m' H W).map (List.map npShape) := by
  unfold split_matrix_into_chunks splitColsNP
  rw [h1]
  by_cases h : m'.shape1 > W
  · simp only [if_pos h, List.map_map]
    apply List.map_congr_left
    intro i _
    simp only [Function.comp]
    exact splitRows_shapes_congr _ _ H (by simp [sliceCols, h0]) (by simp [sliceCols, h1])
  · simp only [if_neg h, List.map_map, List.map_cons, List.map_nil, Function.comp]
    rw [splitRows_shapes_congr m m' H h0 h1]

/-- C2: the nested list of shapes returned by `split_shape_into_chunks` for a
shape equals the `.shape` of every chunk `split_matrix_into_chunks` produces
for any matrix of that shape (outer index column group, inner row group). -/
theorem split_shape_matches_matrix_chunks (m : NPMatrix) (H W : Nat) :
    split_shape_into_chunks (npShape m) H W
      = (split_matrix_into_chunks m H W).map (List.map npShape) := by
  unfold split_shape_into_chunks
  exact split_matrix_shapes_congr _ _ H W rfl rfl

/-! Reconstruction of a matrix from its chunk grid. -/

theorem zipWith_append_map (l : List (List Int)) (f g : List Int → List Int) :
    List.zipWith (· ++ ·) (l.map f) (l.map g) = l.map (fun x => f x ++ g x) := by
  induction l with
  | nil => rfl
  | cons x xs ih => simp [ih]

theorem hconcat2_assoc (a b c : NPMatrix) :
    hconcat2 a (hconcat2 b c) = hconcat2 (hconcat2 a b) c := by
  have hz : ∀ (x y z : List (List Int)),
      List.zipWith (· ++ ·) x (List.zipWith (· ++ ·) y z)
        = List.zipWith (· ++ ·) (List.zipWith (· ++ ·) x y) z := by
    intro x
    induction x with
    | nil => intro y z; rfl
    | cons a x ih =>
      intro y z
      cases y with
      | nil => rfl
      | cons b y =>
        cases z with
        | nil => rfl
        | cons c z => simp [ih, List.append_assoc]
  simp [hconcat2, Nat.add_assoc, hz]

theorem vconcat2_assoc (a b c : NPMatrix) :
    vconcat2 a (vconcat2 b c) = vconcat2 (vconcat2 a b) c := by
  simp [vconcat2, Nat.add_assoc]

theorem hconcatList_append_single (l : List NPMatrix) (x : NPMatrix) (h : l ≠ []) :
    hconcatList (l ++ [x]) = hconcat2 (hconcatList l) x := by
  induction l with
  | nil => exact absurd rfl h
  | cons a l ih =>
    cases l with
    | nil => rfl
    | cons b l' =>
      have hih := ih (by simp)
      simp only [List.cons_append] at hih ⊢
      rw [hconcatList, hih, hconcatList, hconcat2_assoc]

theorem vconcatList_append_single (l : List NPMatrix) (x : NPMatrix) (h : l ≠ []) :
    vconcatList (l ++ [x]) = vconcat2 (vconcatList l) x := by
  induction l with
  | nil => exact absurd rfl h
  | cons a l ih =>
    cases l with
    | nil => rfl
    | cons b l' =>
      have hih := ih (by simp)
      simp only [List.cons_append] at hih ⊢
      rw [vconcatList, hih, vconcatList, vconcat2_assoc]

theorem le_mul_ceilReps (n d : Nat) (hd : 1 ≤ d) : n ≤ d * ceilReps n d := by
  unfold ceilReps
  have h1 : d * (n / d) + n % d = n := Nat.div_add_mod n d
  have h2 : n % d < d := Nat.mod_lt _ hd
  by_cases hr : n % d ≠ 0
  · rw [if_pos hr, Nat.mul_add, Nat.mul_one]
    calc n = d * (n / d) + n % d := h1.symm
    _ ≤ d * (n / d) + d := Nat.add_le_add_left (Nat.le_of_lt h2) _
  · rw [if_neg hr, Nat.add_zero]
    have hz : n % d = 0 := by omega
    rw [hz, Nat.add_zero] at h1
    exact Nat.le_of_eq h1.symm

theorem one_le_ceilReps (n d : Nat) (hd : 1 ≤ d) (hn : d < n) : 1 ≤ ceilReps n d := by
  have : 1 ≤ n / d := (Nat.one_le_div_iff hd).mpr (Nat.le_of_lt hn)
  exact Nat.le_trans this (Nat.le_add_right _ _)

theorem hconcat_colChunks (m : NPMatrix) (W n : Nat) :
    hconcatList ((List.range (n + 1)).map (fun i => sliceCols m (W * i) (W * i + W)))
      = ⟨m.shape0, min (W * (n + 1)) m.shape1,
         m.data.map (fun row => row.take (W * (n + 1)))⟩ := by
  induction n with
  | zero =>
    simp only [List.range_succ, List.range_zero, List.nil_append, List.map_cons,
      List.map_nil, hconcatList]
    simp [sliceCols, NPMatrix.mk.injEq]
  | succ n ih =>
    rw [List.range_succ, List.map_append, List.map_singleton,
        hconcatList_append_single _ _ (by simp [List.range_succ]), ih]
    have hW2 : W * (n + 1 + 1) = W * (n + 1) + W := by ring
    simp only [hconcat2, sliceCols, hW2, Nat.add_sub_cancel_left, NPMatrix.mk.injEq]
    refine ⟨trivial, by omega, ?_⟩
    rw [zipWith_append_map]
    apply List.map_congr_left
    intro row _
    rw [← List.take_add]

theorem vconcat_rowChunks (m : NPMatrix) (H n : Nat) :
    vconcatList ((List.range (n + 1)).map (fun j => sliceRows m (H * j) (H * j + H)))
      = ⟨min (H * (n + 1)) m.shape0, m.shape1, m.data.take (H * (n + 1))⟩ := by
  induction n with
  | zero =>
    simp only [List.range_succ, List.range_zero, List.nil_append, List.map_cons,
      List.map_nil, vconcatList]
    simp [sliceRows, NPMatrix.mk.injEq]
  | succ n ih =>
    rw [List.range_succ, List.map_append, List.map_singleton,
        vconcatList_append_single _ _ (by simp [List.range_succ]), ih]
    have hH2 : H * (n + 1 + 1) = H * (n + 1) + H := by ring
    simp only [vconcat2, sliceRows, hH2, Nat.add_sub_cancel_left, NPMatrix.mk.injEq]
    refine ⟨by omega, trivial, ?_⟩
    rw [← List.take_add]

theorem vconcat_splitRowsNP (mat : NPMatrix) (H : Nat) (hWF : mat.WF) (hH : 1 ≤ H) :
    vconcatList (splitRowsNP mat H) = mat := by
  unfold splitRowsNP
  by_cases h : mat.shape0 > H
  · rw [if_pos h]
    have h1 : 1 ≤ ceilReps mat.shape0 H := one_le_ceilReps _ _ hH h
    obtain ⟨n, hn⟩ : ∃ n, ceilReps mat.shape0 H = n + 1 :=
      ⟨ceilReps mat.shape0 H - 1, (Nat.succ_pred_eq_of_pos h1).symm⟩
    rw [hn, vconcat_rowChunks]
    have hle : mat.shape0 ≤ H * (n + 1) := by
      rw [← hn]; exact le_mul_ceilReps _ _ hH
    obtain ⟨hlen, _⟩ := hWF
    cases mat with
    | mk s0 s1 d =>
      simp only at hle hlen ⊢
      congr 1
      · omega
      · exact List.take_of_length_le (by omega)
  · rw [if_neg h]; rfl

theorem sliceCols_WF (m : NPMatrix) (a b : Nat) (hab : a ≤ b) (h : m.WF) :
    (sliceCols m a b).WF := by
  obtain ⟨h0, h1⟩ := h
  refine ⟨by simp [sliceCols, h0], ?_⟩
  intro row hr
  simp only [sliceCols, List.mem_map] at hr
  obtain ⟨r, hr_mem, rfl⟩ := hr
  have hlen := h1 r hr_mem
  simp only [sliceCols, List.length_take, List.length_drop, hlen]
  omega

theorem splitColsNP_WF (m : NPMatrix) (W : Nat) (hWF : m.WF) :
    ∀ mat ∈ splitColsNP m W, mat.WF := by
  intro mat hm
  unfold splitColsNP at hm
  by_cases h : m.shape1 > W
  · rw [if_pos h] at hm
    simp only [List.mem_map, List.mem_range] at hm
    obtain ⟨i, _, rfl⟩ := hm
    exact sliceCols_WF m _ _ (Nat.le_add_right _ _) hWF
  · rw [if_neg h] at hm
    simp only [List.mem_singleton] at hm
    rw [hm]; exact hWF

theorem hconcat_splitColsNP (m : NPMatrix) (W : Nat) (hWF : m.WF) (hW : 1 ≤ W) :
    hconcatList (splitColsNP m W) = m := by
  unfold splitColsNP
  by_cases h : m.shape1 > W
  · rw [if_pos h]
    have h1 : 1 ≤ ceilReps m.shape1 W := one_le_ceilReps _ _ hW h
    obtain ⟨n, hn⟩ : ∃ n, ceilReps m.shape1 W = n + 1 :=
      ⟨ceilReps m.shape1 W - 1, (Nat.succ_pred_eq_of_pos h1).symm⟩
    rw [hn, hconcat_colChunks]
    have hle : m.shape1 ≤ W * (n + 1) := by
      rw [← hn]; exact le_mul_ceilReps _ _ hW
    obtain ⟨_, hrows⟩ := hWF
    cases m with
    | mk s0 s1 d =>
      simp only at hle hrows ⊢
      congr 1
      · omega
      · calc d.map (fun row => row.take (W * (n + 1)))
            = d.map (fun row => row) := by
              apply List.map_congr_left
              intro row hrow
              exact List.take_of_length_le (by rw [hrows row hrow]; omega)
        _ = d := List.map_id' d
  · rw [if_neg h]; rfl

/-- C1: reconstructing a matrix from the chunk grid of
`split_matrix_into_chunks` — concatenating row groups vertically within each
column group, then concatenating the column groups horizontally — yields the
matrix exactly. -/
theorem split_matrix_reconstruct (m : NPMatrix) (H W : Nat) (hWF : m.WF)
    (hH : 1 ≤ H) (hW : 1 ≤ W) :
    hconcatList ((split_matrix_into_chunks m H W).map vconcatList) = m := by
  unfold split_matrix_into_chunks
  rw [List.map_map]
  have hcols : ∀ mat ∈ splitColsNP m W,
      (vconcatList ∘ fun mat => splitRowsNP mat H) mat = mat := by
    intro mat hm
    exact vconcat_splitRowsNP mat H (splitColsNP_WF m W hWF mat hm) hH
  rw [List.map_congr_left hcols, List.map_id']
  exact hconcat_splitColsNP m W hWF hW

/-- C1 witness: a concrete 3×5 matrix split with H = 2, W = 2 reassembles
exactly. -/
theorem split_matrix_reconstruct_witness :
    hconcatList ((split_matrix_into_chunks
      ⟨3, 5, [[1, 2, 3, 4, 5], [6, 7, 8, 9, 10], [11, 12, 13, 14, 15]]⟩ 2 2).map vconcatList)
      = ⟨3, 5, [[1, 2, 3, 4, 5], [6, 7, 8, 9, 10], [11, 12, 13, 14, 15]]⟩ :=
  split_matrix_reconstruct _ 2 2 (by decide) (by decide) (by decide)

/-! Vector tiler: `split_vector_into_chunks`. -/

/-- Numpy 1-d array or 0-d scalar, as fed to `split_vector_into_chunks`. -/
inductive NPVector where
  | scalar (x : Int)
  | vec (l : List Int)
deriving Repr, DecidableEq

/-- The source's `np.expand_dims(vector, -1)` promotion of a 0-d input to a
length-1 vector, followed by reading the elements off in order. -/
def NPVector.toList : NPVector → List Int
  | .scalar x => [x]
  | .vec l => l

/-- Chunking into groups of `k + 1` elements.  The source builds the groups
with `zip_longest` over `W` copies of one iterator, padding the final group
with `None` and filtering the `None`s out again; for integer elements that
is exactly take/drop chunking with a shorter final chunk. -/
def chunksOfPos (k : Nat) : List Int → List (List Int)
  | [] => []
  | x :: xs => (x :: xs.take k) :: chunksOfPos k (xs.drop k)
termination_by l => l.length
decreasing_by simp [List.length_drop]; omega

/-- `split_vector_into_chunks(vector, W)` from `splitter.py`: chunks of at
most `W`; with `W = 0` the `zip_longest` over zero iterators yields nothing. -/
def split_vector_into_chunks (v : NPVector) (W : Nat) : List (List Int) :=
  if W = 0 then [] else chunksOfPos (W - 1) v.toList

theorem chunksOfPos_flatten_aux (k : Nat) :
    ∀ (n : Nat) (l : List Int), l.length ≤ n → (chunksOfPos k l).flatten = l := by
  intro n
  induction n with
  | zero =>
    intro l hl
    cases l with
    | nil => simp [chunksOfPos]
    | cons x xs => simp at hl
  | succ n ih =>
    intro l hl
    cases l with
    | nil => simp [chunksOfPos]
    | cons x xs =>
      simp only [chunksOfPos, List.flatten_cons]
      have hlen : (xs.drop k).length ≤ n := by
        simp only [List.length_drop]
        simp only [List.length_cons] at hl
        omega
      rw [ih _ hlen]
      simp [List.take_append_drop]

theorem chunksOfPos_flatten (k : Nat) (l : List Int) :
    (chunksOfPos k l).flatten = l :=
  chunksOfPos_flatten_aux k l.length l (Nat.le_refl _)

theorem chunksOfPos_ne_nil (k : Nat) (l : List Int) (h : l ≠ []) :
    chunksOfPos k l ≠ [] := by
  cases l with
  | nil => exact absurd rfl h
  | cons x xs => simp [chunksOfPos]

theorem chunksOfPos_length_le_aux (k : Nat) :
    ∀ (n : Nat) (l : List Int), l.length ≤ n →
      ∀ c ∈ chunksOfPos k l, 1 ≤ c.length ∧ c.length ≤ k + 1 := by
  intro n
  induction n with
  | zero =>
    intro l hl c hc
    cases l with
    | nil => simp [chunksOfPos] at hc
    | cons x xs => simp at hl
  | succ n ih =>
    intro l hl c hc
    cases l with
    | nil => simp [chunksOfPos] at hc
    | cons x xs =>
      simp only [chunksOfPos, List.mem_cons] at hc
      rcases hc with hc | hc
      · subst hc
        simp [List.length_take]
      · have hlen : (xs.drop k).length ≤ n := by
          simp only [List.length_drop]
          simp only [List.length_cons] at hl
          omega
        exact ih _ hlen c hc

theorem chunksOfPos_length_le (k : Nat) (l : List Int) :
    ∀ c ∈ chunksOfPos k l, 1 ≤ c.length ∧ c.length ≤ k + 1 :=
  chunksOfPos_length_le_aux k l.length l (Nat.le_refl _)

theorem chunksOfPos_dropLast_aux (k : Nat) :
    ∀ (n : Nat) (l : List Int), l.length ≤ n →
      ∀ c ∈ (chunksOfPos k l).dropLast, c.length = k + 1 := by
  intro n
  induction n with
  | zero =>
    intro l hl c hc
    cases l with
    | nil => simp [chunksOfPos] at hc
    | cons x xs => simp at hl
  | succ n ih =>
    intro l hl c hc
    cases l with
    | nil => simp [chunksOfPos] at hc
    | cons x xs =>
      simp only [chunksOfPos] at hc
      by_cases hrest : xs.drop k = []
      · rw [hrest] at hc
        simp [chunksOfPos] at hc
      · have hk : k < xs.length := by
          rcases Nat.lt_or_ge k xs.length with h | h
          · exact h
          · exact absurd (List.drop_eq_nil_of_le h) hrest
        rcases hx : chunksOfPos k (xs.drop k) with _ | ⟨y, ys⟩
        · exact absurd hx (chunksOfPos_ne_nil k _ hrest)
        · rw [hx] at hc
          simp only [List.dropLast_cons₂, List.mem_cons] at hc
          rcases hc with hc | hc
          · subst hc
            simp [List.length_take]
            omega
          · have hlen : (xs.drop k).length ≤ n := by
              simp only [List.length_drop]
              simp only [List.length_cons] at hl
              omega
            exact ih _ hlen c (by rw [hx]; exact hc)

theorem chunksOfPos_dropLast_length (k : Nat) (l : List Int) :
    ∀ c ∈ (chunksOfPos k l).dropLast, c.length = k + 1 :=
  chunksOfPos_dropLast_aux k l.length l (Nat.le_refl _)

/-- C10: for a non-empty vector and limit `W ≥ 1`, the chunks of
`split_vector_into_chunks` concatenate back to the vector, every chunk
except possibly the last has length exactly `W`, every chunk has length
between 1 and `W`, and a 0-d scalar is treated as a length-1 vector. -/
theorem split_vector_spec (v : NPVector) (W : Nat) (hv : v.toList ≠ [])
    (hW : 1 ≤ W) :
    (split_vector_into_chunks v W).flatten = v.toList ∧
    (∀ c ∈ (split_vector_into_chunks v W).dropLast, c.length = W) ∧
    (∀ c ∈ split_vector_into_chunks v W, 1 ≤ c.length ∧ c.length ≤ W) ∧
    (∀ x : Int, split_vector_into_chunks (NPVector.scalar x) W
        = split_vector_into_chunks (NPVector.vec [x]) W) := by
  have hW0 : ¬ W = 0 := by omega
  unfold split_vector_into_chunks
  simp only [if_neg hW0]
  refine ⟨chunksOfPos_flatten _ _, ?_, ?_, fun x => rfl⟩
  · intro c hc
    have := chunksOfPos_dropLast_length (W - 1) v.toList c hc
    omega
  · intro c hc
    have := chunksOfPos_length_le (W - 1) v.toList c hc
    omega

/-- C10 witness: the vector `[1,2,3,4,5]` with `W = 2`. -/
theorem split_vector_spec_witness :
    (split_vector_into_chunks (NPVector.vec [1, 2, 3, 4, 5]) 2).flatten
        = (NPVector.vec [1, 2, 3, 4, 5]).toList ∧
    (∀ c ∈ (split_vector_into_chunks (NPVector.vec [1, 2, 3, 4, 5]) 2).dropLast,
        c.length = 2) ∧
    (∀ c ∈ split_vector_into_chunks (NPVector.vec [1, 2, 3, 4, 5]) 2,
        1 ≤ c.length ∧ c.length ≤ 2) ∧
    (∀ x : Int, split_vector_into_chunks (NPVector.scalar x) 2
        = split_vector_into_chunks (NPVector.vec [x]) 2) :=
  split_vector_spec (NPVector.vec [1, 2, 3, 4, 5]) 2 (by decide) (by decide)

/-! Channel tiler: `split_kernel_into_channels`. -/

/-- Shallow embedding of a numpy 4-d kernel shaped
(out channels, in channels, kH, kW). -/
structure NPKernel where
  shape0 : Nat
  shape1 : Nat
  shape2 : Nat
  shape3 : Nat
  data : List (List (List (List Int)))
deriving Repr, DecidableEq

/-- Numpy slice `kernel[:, a:b]` along the input-channel axis. -/
def sliceKernelChannels (k : NPKernel) (a b : Nat) : NPKernel :=
  ⟨k.shape0, min b k.shape1 - min a k.shape1, k.shape2, k.shape3,
   k.data.map (fun f => (f.drop a).take (b - a))⟩

/-- `split_kernel_into_channels(kernel, C)` from `splitter.py`.  The
accumulator starts empty and is only appended to inside the
`kernel.shape[1] > C` branch, so a kernel with `in_channels ≤ C` yields the
empty list. -/
def split_kernel_into_channels (k : NPKernel) (C : Nat) : List NPKernel :=
  if k.shape1 > C then
    (List.range (ceilReps k.shape1 C)).map
      (fun i => sliceKernelChannels k (C * i) (C * i + C))
  else []

/-- A concrete kernel shaped (1, 2, 3, 3): one filter with 2 input channels. -/
def c4kernel : NPKernel :=
  ⟨1, 2, 3, 3,
   [[[[1, 1, 1], [1, 1, 1], [1, 1, 1]],
     [[2, 2, 2], [2, 2, 2], [2, 2, 2]]]]⟩

/-- C4, failing input: a kernel with `in_channels = 2 ≤ C = 4` makes
`split_kernel_into_channels` return the empty list, not the claimed
single-element list containing the whole kernel. -/
theorem split_kernel_small_channels_empty :
    split_kernel_into_channels c4kernel 4 = [] ∧
    split_kernel_into_channels c4kernel 4 ≠ [c4kernel] ∧
    c4kernel.shape1 ≤ 4 := by decide

/-! Graph nodes and the subgraph emitters. -/

/-- Modelled from the spec: the `cnodes` node-container module is not under
src/.  Spec section 3 describes a node as a tagged variant over operator
kinds with ordered input/output edge identifier lists, operator-specific
parameters (weight matrix, optional bias vector, kernel, stride, slice
bounds, concatenation axis, channel count, kernel spatial size) and a
provenance tag `from_type` set post-hoc by the emitter.  Constructor
defaults model parameters that a constructor call leaves absent. -/
structure CNode where
  kind : String
  inputs : List String
  outputs : List String
  matrix : NPMatrix := npZero
  biases : Option NPVector := none
  kernel : NPKernel := ⟨0, 0, 0, 0, []⟩
  strides : Nat := 1
  ksize : Nat := 0
  col_lim : List Nat := []
  axis : Int := 0
  channels : Nat := 0
  from_type : String := ""
deriving Repr, DecidableEq

/-- The original node's primary output identifier `cnode.outputs[0]`. -/
def primaryOut (c : CNode) : String := c.outputs.headD ""

/-- The `_slicer_{i}-{j}` edge name. -/
def slicerEdge (bs : String) (i j : Nat) : String :=
  bs ++ "_slicer_" ++ toString i ++ "-" ++ toString j

/-- The `_gemm_{i}-{j}` edge name. -/
def gemmEdge (bs : String) (i j : Nat) : String :=
  bs ++ "_gemm_" ++ toString i ++ "-" ++ toString j

/-- The `_adder_{i}` edge name. -/
def adderEdge (bs : String) (i : Nat) : String := bs ++ "_adder_" ++ toString i

/-- The `_cat` edge name. -/
def catEdge (bs : String) : String := bs ++ "_cat"

/-- The `_tplitz` edge name. -/
def tplitzEdge (bs : String) : String := bs ++ "_tplitz"

def mkSlicer (ins : List String) (out : String) (H j : Nat) : CNode :=
  { kind := "slicer", inputs := ins, outputs := [out],
    col_lim := [H * j, H * j + H] }

def mkGemmChunk (inp out : String) (mat : NPMatrix) : CNode :=
  { kind := "gemm", inputs := [inp], outputs := [out], matrix := mat }

def mkAdder (ins : List String) (out : String) : CNode :=
  { kind := "add", inputs := ins, outputs := [out] }

def mkCat (ins outs : List String) (ax : Int) : CNode :=
  { kind := "cat", inputs := ins, outputs := outs, axis := ax }

def mkTplitz (ins outs : List String) (ks st : Nat) : CNode :=
  { kind := "toeplitzizer", inputs := ins, outputs := outs, ksize := ks,
    strides := st }

def mkReshaper (ins outs : List String) (ch : Nat) : CNode :=
  { kind := "reshaper", inputs := ins, outputs := outs, channels := ch }

/-- The emitters' inner row-group loop (`for j, matrix in enumerate(col)`):
one slicer node and one chunk matmul node per row group. -/
def chunkPairs (sIns : List String) (bs : String) (H i : Nat) :
    Nat → List NPMatrix → List CNode
  | _, [] => []
  | j, mat :: rest =>
      mkSlicer sIns (slicerEdge bs i j) H j ::
      mkGemmChunk (slicerEdge bs i j) (gemmEdge bs i j) mat ::
      chunkPairs sIns bs H i (j + 1) rest

/-- The source's `nodes[-1].biases = subbiases[i]`: assign the bias chunk to
the most recently emitted node (the column's last chunk matmul). -/
def setLastBias (b : NPVector) : List CNode → List CNode
  | [] => []
  | [n] => [{n with biases := some b}]
  | n :: m :: rest => n :: setLastBias b (m :: rest)

/-- One column group of `split_gemm_into_chunks`: slicer/matmul pairs, bias
on the last matmul, then always an adder over the matmul outputs. -/
def gemmColumn (sIns : List String) (bs : String) (H : Nat) (b : NPVector)
    (i : Nat) (col : List NPMatrix) : List CNode :=
  setLastBias b (chunkPairs sIns bs H i 0 col) ++
  [mkAdder ((List.range col.length).map (gemmEdge bs i)) (adderEdge bs i)]

/-- The column-group loop of `split_gemm_into_chunks`
(`for i, col in enumerate(submatrices)`). -/
def gemmColumns (sIns : List String) (bs : String) (H : Nat)
    (subb : List (List Int)) : Nat → List (List NPMatrix) → List CNode
  | _, [] => []
  | i, col :: rest =>
      gemmColumn sIns bs H (.vec (subb.getD i [])) i col ++
      gemmColumns sIns bs H subb (i + 1) rest

def tagFromType (ft : String) (n : CNode) : CNode := {n with from_type := ft}

/-- `split_gemm_into_chunks(cnode, H, W)` from `splitter.py`
(`submatrices` and `subbiases` written out in place of the source's local
variables). -/
def split_gemm_into_chunks (cnode : CNode) (H W : Nat) : List CNode :=
  if (split_matrix_into_chunks cnode.matrix H W).length = 1 ∧
      ((split_matrix_into_chunks cnode.matrix H W).headD []).length = 1 then
    [cnode]
  else
    (gemmColumns cnode.inputs (primaryOut cnode) H
        (split_vector_into_chunks (cnode.biases.getD (.vec [])) W) 0
        (split_matrix_into_chunks cnode.matrix H W) ++
      [mkCat
        ((List.range (split_matrix_into_chunks cnode.matrix H W).length).map
          (adderEdge (primaryOut cnode)))
        cnode.outputs 0]).map (tagFromType "gemm")

/-- One column group of `split_conv_into_chunks`: like `gemmColumn`, but the
slicers read the toeplitzized edge and the adder is only emitted when the
column has more than one row group. -/
def convColumn (bs : String) (H : Nat) (b : NPVector) (i : Nat)
    (col : List NPMatrix) : List CNode :=
  setLastBias b (chunkPairs [tplitzEdge bs] bs H i 0 col) ++
  (if col.length > 1 then
      [mkAdder ((List.range col.length).map (gemmEdge bs i)) (adderEdge bs i)]
    else [])

/-- The column-group loop of `split_conv_into_chunks`. -/
def convColumns (bs : String) (H : Nat) (subb : List (List Int)) :
    Nat → List (List NPMatrix) → List CNode
  | _, [] => []
  | i, col :: rest =>
      convColumn bs H (.vec (subb.getD i [])) i col ++
      convColumns bs H subb (i + 1) rest

/-- The `cat_inputs` accumulated by `split_conv_into_chunks`: the adder edge
when the column was summed, otherwise the column's matmul edges. -/
def convCatInputs (bs : String) : Nat → List (List NPMatrix) → List String
  | _, [] => []
  | i, col :: rest =>
      (if col.length > 1 then [adderEdge bs i]
        else (List.range col.length).map (gemmEdge bs i)) ++
      convCatInputs bs (i + 1) rest

/-- The provenance tag chosen by `split_conv_into_chunks` from the kernel's
spatial size `cnode.kernel.shape[-1]`. -/
def convFromType (cnode : CNode) : String :=
  if cnode.kernel.shape3 = 1 then "pointwise" else "conv"

/-- `split_conv_into_chunks(cnode, H, W)` from `splitter.py`
(local variables written out in place). -/
def split_conv_into_chunks (cnode : CNode) (H W : Nat) : List CNode :=
  if (split_matrix_into_chunks cnode.matrix H W).length = 1 ∧
      ((split_matrix_into_chunks cnode.matrix H W).headD []).length = 1 then
    [{cnode with from_type := convFromType cnode}]
  else
    (mkTplitz cnode.inputs [tplitzEdge (primaryOut cnode)] cnode.kernel.shape3
        cnode.strides ::
      (convColumns (primaryOut cnode) H
          (split_vector_into_chunks (cnode.biases.getD (.vec [])) W) 0
          (split_matrix_into_chunks cnode.matrix H W) ++
        [mkCat (convCatInputs (primaryOut cnode) 0
             (split_matrix_into_chunks cnode.matrix H W))
           [catEdge (primaryOut cnode)] (-1),
         mkReshaper [catEdge (primaryOut cnode)] cnode.outputs
           cnode.matrix.shape1])).map (tagFromType (convFromType cnode))

/-- The concrete GEMM node of the 4×10 scenario: weight 4×10, bias length
10, inputs `["X"]`, primary output `"Y"`. -/
def c3node : CNode :=
  { kind := "gemm", inputs := ["X"], outputs := ["Y"],
    matrix := ⟨4, 10, (List.range 4).map
      (fun r => (List.range 10).map (fun c => (10 * r + c : Int)))⟩,
    biases := some (.vec ((List.range 10).map (fun i => (i : Int)))) }

/-- C3 counterexample: for the 4×10 weight with H = 4, W = 4,
`split_gemm_into_chunks` emits 3 Add nodes (one per column group), not the
claimed zero: the GEMM emitter has no single-row-group guard. -/
theorem gemm_4x10_add_count :
    ((split_gemm_into_chunks c3node 4 4).filter
      (fun n => n.kind == "add")).length = 3 := by decide

/-- C3 amended: the 4×10, H = 4, W = 4 scenario emits exactly 3 MatMul
nodes, 3 Slice nodes, 3 Add nodes each with a single input (a degenerate
sum, since every column group has one row group), and one Concat node
combining the 3 column-group adder outputs. -/
theorem gemm_4x10_node_counts :
    ((split_gemm_into_chunks c3node 4 4).filter
      (fun n => n.kind == "gemm")).length = 3 ∧
    ((split_gemm_into_chunks c3node 4 4).filter
      (fun n => n.kind == "slicer")).length = 3 ∧
    ((split_gemm_into_chunks c3node 4 4).filter
      (fun n => n.kind == "add")).length = 3 ∧
    (∀ n ∈ split_gemm_into_chunks c3node 4 4,
      n.kind = "add" → n.inputs.length = 1) ∧
    ((split_gemm_into_chunks c3node 4 4).filter
      (fun n => n.kind == "cat")).map (fun n => n.inputs.length) = [3] := by
  decide

/-- C7: when the weight matrix already fits the tile (rows ≤ H and
cols ≤ W, a 1×1 chunk grid), `split_gemm_into_chunks` returns the original
node unchanged: no new nodes and no new edge identifiers. -/
theorem split_gemm_passthrough (cnode : CNode) (H W : Nat)
    (h0 : cnode.matrix.shape0 ≤ H) (h1 : cnode.matrix.shape1 ≤ W) :
    split_gemm_into_chunks cnode H W = [cnode] := by
  have hc : ¬ cnode.matrix.shape1 > W := by omega
  have hr : ¬ cnode.matrix.shape0 > H := by omega
  simp [split_gemm_into_chunks, split_matrix_into_chunks, splitColsNP,
    splitRowsNP, hc, hr]

/-- A small concrete GEMM node whose 2×2 weight fits a 5×5 tile. -/
def c7node : CNode :=
  { kind := "gemm", inputs := ["A"], outputs := ["B"],
    matrix := ⟨2, 2, [[1, 2], [3, 4]]⟩, biases := some (.vec [5, 6]) }

/-- C7 witness: the 2×2 weight with H = W = 5 passes through unchanged. -/
theorem split_gemm_passthrough_witness :
    split_gemm_into_chunks c7node 5 5 = [c7node] :=
  split_gemm_passthrough c7node 5 5 (by decide) (by decide)

/-! Bias placement: exactly one biased matmul per column group. -/

/-- A chunk matmul node that carries a bias. -/
def isBiasedGemm (n : CNode) : Bool := n.kind == "gemm" && n.biases.isSome

theorem isBiasedGemm_mkSlicer (ins : List String) (out : String) (H j : Nat) :
    isBiasedGemm (mkSlicer ins out H j) = false := rfl

theorem isBiasedGemm_mkGemmChunk (a b : String) (mat : NPMatrix) :
    isBiasedGemm (mkGemmChunk a b mat) = false := rfl

theorem isBiasedGemm_mkAdder (ins : List String) (out : String) :
    isBiasedGemm (mkAdder ins out) = false := rfl

theorem isBiasedGemm_mkCat (ins outs : List String) (ax : Int) :
    isBiasedGemm (mkCat ins outs ax) = false := rfl

theorem isBiasedGemm_mkTplitz (ins outs : List String) (ks st : Nat) :
    isBiasedGemm (mkTplitz ins outs ks st) = false := rfl

theorem isBiasedGemm_mkReshaper (ins outs : List String) (ch : Nat) :
    isBiasedGemm (mkReshaper ins outs ch) = false := rfl

theorem isBiasedGemm_tag (ft : String) (n : CNode) :
    isBiasedGemm (tagFromType ft n) = isBiasedGemm n := rfl

/-- Filtering commutes with the provenance-tagging pass, because the tag
touches neither the kind nor the bias. -/
theorem filter_tag_comm (ft : String) (l : List CNode) :
    (l.map (tagFromType ft)).filter isBiasedGemm
      = (l.filter isBiasedGemm).map (tagFromType ft) := by
  induction l with
  | nil => rfl
  | cons n l ih =>
    simp only [List.map_cons, List.filter_cons, isBiasedGemm_tag]
    by_cases hpn : isBiasedGemm n = true
    · simp [hpn, ih]
    · simp [hpn, ih]

theorem getLastD_default_irrel (a : NPMatrix) (l : List NPMatrix) (d : NPMatrix) :
    (a :: l).getLastD d = (a :: l).getLastD npZero := by
  induction l generalizing a with
  | nil => rfl
  | cons b l ih => simp only [List.getLastD_cons, ih b]

theorem setLastBias_cons_of_ne_nil (b : NPVector) (x : CNode) (l : List CNode)
    (h : l ≠ []) : setLastBias b (x :: l) = x :: setLastBias b l := by
  cases l with
  | nil => exact absurd rfl h
  | cons y l => rfl

theorem chunkPairs_ne_nil (sIns : List String) (bs : String) (H i j : Nat)
    (mat : NPMatrix) (rest : List NPMatrix) :
    chunkPairs sIns bs H i j (mat :: rest) ≠ [] := by
  simp [chunkPairs]

theorem setLastBias_chunkPairs_filter (sIns : List String) (bs : String)
    (H i : Nat) (b : NPVector) :
    ∀ (col : List NPMatrix) (j : Nat), col ≠ [] →
      (setLastBias b (chunkPairs sIns bs H i j col)).filter isBiasedGemm
        = [{ mkGemmChunk (slicerEdge bs i (j + col.length - 1))
              (gemmEdge bs i (j + col.length - 1))
              (col.getLastD npZero) with biases := some b }] := by
  intro col
  induction col with
  | nil => intro j h; exact absurd rfl h
  | cons mat rest ih =>
    intro j _
    cases rest with
    | nil =>
      show (setLastBias b (chunkPairs sIns bs H i j [mat])).filter isBiasedGemm = _
      rw [chunkPairs, chunkPairs, setLastBias, setLastBias]
      rw [List.filter_cons_of_neg (by simp [isBiasedGemm_mkSlicer]),
          List.filter_cons_of_pos (by simp [isBiasedGemm, mkGemmChunk]),
          List.filter_nil]
      simp [List.length_cons, List.getLastD]
    | cons mat2 rest2 =>
      rw [chunkPairs,
          setLastBias_cons_of_ne_nil _ _ _ (by simp [chunkPairs]),
          setLastBias_cons_of_ne_nil _ _ _ (chunkPairs_ne_nil sIns bs H i (j + 1) mat2 rest2),
          List.filter_cons_of_neg (by simp [isBiasedGemm_mkSlicer]),
          List.filter_cons_of_neg (by simp [isBiasedGemm_mkGemmChunk]),
          ih (j + 1) (by simp)]
      have hidx : j + 1 + (mat2 :: rest2).length - 1
          = j + (mat :: mat2 :: rest2).length - 1 := by
        simp only [List.length_cons]
        omega
      rw [hidx]
      simp only [List.getLastD_cons]

theorem gemmColumn_filter (sIns : List String) (bs : String) (H : Nat)
    (b : NPVector) (i : Nat) (col : List NPMatrix) (h : col ≠ []) :
    (gemmColumn sIns bs H b i col).filter isBiasedGemm
      = [{ mkGemmChunk (slicerEdge bs i (col.length - 1))
            (gemmEdge bs i (col.length - 1))
            (col.getLastD npZero) with biases := some b }] := by
  unfold gemmColumn
  rw [List.filter_append, setLastBias_chunkPairs_filter sIns bs H i b col 0 h]
  simp [isBiasedGemm_mkAdder]

theorem convColumn_filter (bs : String) (H : Nat) (b : NPVector) (i : Nat)
    (col : List NPMatrix) (h : col ≠ []) :
    (convColumn bs H b i col).filter isBiasedGemm
      = [{ mkGemmChunk (slicerEdge bs i (col.length - 1))
            (gemmEdge bs i (col.length - 1))
            (col.getLastD npZero) with biases := some b }] := by
  unfold convColumn
  rw [List.filter_append, setLastBias_chunkPairs_filter _ bs H i b col 0 h]
  by_cases hlen : col.length > 1
  · simp [hlen, isBiasedGemm_mkAdder]
  · simp [hlen]

theorem gemmColumns_filter (sIns : List String) (bs : String) (H : Nat)
    (subb : List (List Int)) :
    ∀ (grid : List (List NPMatrix)) (i : Nat), (∀ col ∈ grid, col ≠ []) →
      (gemmColumns sIns bs H subb i grid).filter isBiasedGemm
        = (List.enumFrom i grid).map (fun ic =>
            { mkGemmChunk (slicerEdge bs ic.1 (ic.2.length - 1))
                (gemmEdge bs ic.1 (ic.2.length - 1))
                (ic.2.getLastD npZero) with
              biases := some (NPVector.vec (subb.getD ic.1 [])) }) := by
  intro grid
  induction grid with
  | nil => intro i _; rfl
  | cons col rest ih =>
    intro i hall
    simp only [gemmColumns, List.filter_append, List.enumFrom]
    rw [gemmColumn_filter _ _ _ _ _ _ (hall col (by simp)),
        ih (i + 1) (fun c hc => hall c (by simp [hc]))]
    simp

theorem convColumns_filter (bs : String) (H : Nat) (subb : List (List Int)) :
    ∀ (grid : List (List NPMatrix)) (i : Nat), (∀ col ∈ grid, col ≠ []) →
      (convColumns bs H subb i grid).filter isBiasedGemm
        = (List.enumFrom i grid).map (fun ic =>
            { mkGemmChunk (slicerEdge bs ic.1 (ic.2.length - 1))
                (gemmEdge bs ic.1 (ic.2.length - 1))
                (ic.2.getLastD npZero) with
              biases := some (NPVector.vec (subb.getD ic.1 [])) }) := by
  intro grid
  induction grid with
  | nil => intro i _; rfl
  | cons col rest ih =>
    intro i hall
    simp only [convColumns, List.filter_append, List.enumFrom]
    rw [convColumn_filter _ _ _ _ _ (hall col (by simp)),
        ih (i + 1) (fun c hc => hall c (by simp [hc]))]
    simp

theorem splitRowsNP_ne_nil (m : NPMatrix) (H : Nat) : splitRowsNP m H ≠ [] := by
  unfold splitRowsNP
  by_cases h : m.shape0 > H
  · rw [if_pos h]
    have h1 : 1 ≤ ceilReps m.shape0 H := by
      by_cases hH : H = 0
      · subst hH
        unfold ceilReps
        have hz : m.shape0 % 0 ≠ 0 := by
          rw [Nat.mod_zero]; omega
        rw [if_pos hz]
        omega
      · exact one_le_ceilReps _ _ (by omega) h
    simp only [ne_eq, List.map_eq_nil_iff, List.range_eq_nil]
    omega
  · rw [if_neg h]; simp

theorem grid_cols_ne_nil (m : NPMatrix) (H W : Nat) :
    ∀ col ∈ split_matrix_into_chunks m H W, col ≠ [] := by
  intro col hc
  unfold split_matrix_into_chunks at hc
  rw [List.mem_map] at hc
  obtain ⟨mat, _, rfl⟩ := hc
  exact splitRowsNP_ne_nil mat H

/-- C5: in every emitted subgraph of `split_gemm_into_chunks` and of the
identical procedure in `split_conv_into_chunks`, the matmul nodes carrying
a bias are exactly one per column group `i`: the last matmul emitted for
that group (row-group index `col.length - 1`), and it carries that group's
bias chunk `subbiases[i]`. -/
theorem bias_on_last_matmul (cnode : CNode) (H W : Nat)
    (hsplit : ¬((split_matrix_into_chunks cnode.matrix H W).length = 1 ∧
      ((split_matrix_into_chunks cnode.matrix H W).headD []).length = 1)) :
    (split_gemm_into_chunks cnode H W).filter isBiasedGemm
      = ((split_matrix_into_chunks cnode.matrix H W).enum.map (fun ic =>
          tagFromType "gemm"
            { mkGemmChunk (slicerEdge (primaryOut cnode) ic.1 (ic.2.length - 1))
                (gemmEdge (primaryOut cnode) ic.1 (ic.2.length - 1))
                (ic.2.getLastD npZero) with
              biases := some (NPVector.vec
                ((split_vector_into_chunks (cnode.biases.getD (.vec [])) W).getD
                  ic.1 [])) })) ∧
    (split_conv_into_chunks cnode H W).filter isBiasedGemm
      = ((split_matrix_into_chunks cnode.matrix H W).enum.map (fun ic =>
          tagFromType (convFromType cnode)
            { mkGemmChunk (slicerEdge (primaryOut cnode) ic.1 (ic.2.length - 1))
                (gemmEdge (primaryOut cnode) ic.1 (ic.2.length - 1))
                (ic.2.getLastD npZero) with
              biases := some (NPVector.vec
                ((split_vector_into_chunks (cnode.biases.getD (.vec [])) W).getD
                  ic.1 [])) })) := by
  constructor
  · unfold split_gemm_into_chunks
    rw [if_neg hsplit, filter_tag_comm, List.filter_append,
        gemmColumns_filter _ _ _ _ _ 0 (grid_cols_ne_nil _ _ _)]
    simp [isBiasedGemm_mkCat, List.enum, List.map_map, Function.comp]
  · unfold split_conv_into_chunks
    rw [if_neg hsplit]
    simp only [List.map_cons, List.filter_cons, isBiasedGemm_tag,
      isBiasedGemm_mkTplitz, cond_false]
    rw [filter_tag_comm, List.filter_append,
        convColumns_filter _ _ _ _ 0 (grid_cols_ne_nil _ _ _)]
    simp [isBiasedGemm_mkCat, isBiasedGemm_mkReshaper, List.enum, List.map_map,
      Function.comp]

/-- C5 witness: the concrete 4×10 GEMM/conv node of the scenario, H = 4,
W = 4 (chunk grid 3×1, so three biased matmuls, one per column group). -/
theorem bias_on_last_matmul_witness :
    (split_gemm_into_chunks c3node 4 4).filter isBiasedGemm
      = ((split_matrix_into_chunks c3node.matrix 4 4).enum.map (fun ic =>
          tagFromType "gemm"
            { mkGemmChunk (slicerEdge (primaryOut c3node) ic.1 (ic.2.length - 1))
                (gemmEdge (primaryOut c3node) ic.1 (ic.2.length - 1))
                (ic.2.getLastD npZero) with
              biases := some (NPVector.vec
                ((split_vector_into_chunks (c3node.biases.getD (.vec [])) 4).getD
                  ic.1 [])) })) ∧
    (split_conv_into_chunks c3node 4 4).filter isBiasedGemm
      = ((split_matrix_into_chunks c3node.matrix 4 4).enum.map (fun ic =>
          tagFromType (convFromType c3node)
            { mkGemmChunk (slicerEdge (primaryOut c3node) ic.1 (ic.2.length - 1))
                (gemmEdge (primaryOut c3node) ic.1 (ic.2.length - 1))
                (ic.2.getLastD npZero) with
              biases := some (NPVector.vec
                ((split_vector_into_chunks (c3node.biases.getD (.vec [])) 4).getD
                  ic.1 [])) })) :=
  bias_on_last_matmul c3node 4 4 (by decide)

/-! Deterministic edge naming. -/

/-- The documented generated-edge identifier forms: a node either writes the
original node's output list (the final concatenation, or the unchanged node
on passthrough), or a single edge obtained by applying a role suffix
(`_slicer_i-j`, `_gemm_i-j`, `_adder_i`, `_tplitz`, `_cat`) to the original
node's primary output identifier. -/
def HasEmittedEdge (c : CNode) (n : CNode) : Prop :=
  n.outputs = c.outputs ∨
  (∃ i j, n.outputs = [slicerEdge (primaryOut c) i j]) ∨
  (∃ i j, n.outputs = [gemmEdge (primaryOut c) i j]) ∨
  (∃ i, n.outputs = [adderEdge (primaryOut c) i]) ∨
  n.outputs = [tplitzEdge (primaryOut c)] ∨
  n.outputs = [catEdge (primaryOut c)]

theorem chunkPairs_outputs (sIns : List String) (bs : String) (H i : Nat) :
    ∀ (col : List NPMatrix) (j : Nat) (n : CNode),
      n ∈ chunkPairs sIns bs H i j col →
      (∃ j', n.outputs = [slicerEdge bs i j']) ∨
      (∃ j', n.outputs = [gemmEdge bs i j']) := by
  intro col
  induction col with
  | nil => intro j n h; simp [chunkPairs] at h
  | cons mat rest ih =>
    intro j n h
    simp only [chunkPairs, List.mem_cons] at h
    rcases h with rfl | rfl | h
    · exact Or.inl ⟨j, rfl⟩
    · exact Or.inr ⟨j, rfl⟩
    · exact ih (j + 1) n h

theorem setLastBias_outputs (b : NPVector) :
    ∀ (l : List CNode) (n : CNode), n ∈ setLastBias b l →
      ∃ n' ∈ l, n.outputs = n'.outputs := by
  intro l
  induction l with
  | nil => intro n h; simp [setLastBias] at h
  | cons x rest ih =>
    cases rest with
    | nil =>
      intro n h
      simp only [setLastBias, List.mem_singleton] at h
      subst h
      exact ⟨x, by simp, rfl⟩
    | cons y rest2 =>
      intro n h
      rw [setLastBias] at h
      rcases List.mem_cons.mp h with rfl | h
      · exact ⟨n, by simp, rfl⟩
      · obtain ⟨n', hn', he⟩ := ih n h
        exact ⟨n', List.mem_cons_of_mem _ hn', he⟩

theorem gemmColumns_outputs (sIns : List String) (bs : String) (H : Nat)
    (subb : List (List Int)) :
    ∀ (grid : List (List NPMatrix)) (i : Nat) (n : CNode),
      n ∈ gemmColumns sIns bs H subb i grid →
      (∃ i' j', n.outputs = [slicerEdge bs i' j']) ∨
      (∃ i' j', n.outputs = [gemmEdge bs i' j']) ∨
      (∃ i', n.outputs = [adderEdge bs i']) := by
  intro grid
  induction grid with
  | nil => intro i n h; simp [gemmColumns] at h
  | cons col rest ih =>
    intro i n h
    simp only [gemmColumns, List.mem_append] at h
    rcases h with h | h
    · unfold gemmColumn at h
      rw [List.mem_append] at h
      rcases h with h | h
      · obtain ⟨n', hn', hout⟩ := setLastBias_outputs _ _ _ h
        rcases chunkPairs_outputs sIns bs H i col 0 n' hn' with ⟨j', hj⟩ | ⟨j', hj⟩
        · exact Or.inl ⟨i, j', hout.trans hj⟩
        · exact Or.inr (Or.inl ⟨i, j', hout.trans hj⟩)
      · simp only [List.mem_singleton] at h
        subst h
        exact Or.inr (Or.inr ⟨i, rfl⟩)
    · exact ih (i + 1) n h

theorem convColumns_outputs (bs : String) (H : Nat) (subb : List (List Int)) :
    ∀ (grid : List (List NPMatrix)) (i : Nat) (n : CNode),
      n ∈ convColumns bs H subb i grid →
      (∃ i' j', n.outputs = [slicerEdge bs i' j']) ∨
      (∃ i' j', n.outputs = [gemmEdge bs i' j']) ∨
      (∃ i', n.outputs = [adderEdge bs i']) := by
  intro grid
  induction grid with
  | nil => intro i n h; simp [convColumns] at h
  | cons col rest ih =>
    intro i n h
    simp only [convColumns, List.mem_append] at h
    rcases h with h | h
    · unfold convColumn at h
      rw [List.mem_append] at h
      rcases h with h | h
      · obtain ⟨n', hn', hout⟩ := setLastBias_outputs _ _ _ h
        rcases chunkPairs_outputs _ bs H i col 0 n' hn' with ⟨j', hj⟩ | ⟨j', hj⟩
        · exact Or.inl ⟨i, j', hout.trans hj⟩
        · exact Or.inr (Or.inl ⟨i, j', hout.trans hj⟩)
      · by_cases hl : col.length > 1
        · rw [if_pos hl] at h
          simp only [List.mem_singleton] at h
          subst h
          exact Or.inr (Or.inr ⟨i, rfl⟩)
        · rw [if_neg hl] at h
          simp at h
    · exact ih (i + 1) n h

theorem split_gemm_edge_names (c : CNode) (H W : Nat) :
    ∀ n ∈ split_gemm_into_chunks c H W, HasEmittedEdge c n := by
  intro n h
  unfold split_gemm_into_chunks at h
  by_cases hc : (split_matrix_into_chunks c.matrix H W).length = 1 ∧
      ((split_matrix_into_chunks c.matrix H W).headD []).length = 1
  · rw [if_pos hc] at h
    simp only [List.mem_singleton] at h
    subst h
    exact Or.inl rfl
  · rw [if_neg hc] at h
    rw [List.mem_map] at h
    obtain ⟨n', hn', rfl⟩ := h
    rw [List.mem_append] at hn'
    rcases hn' with hn' | hn'
    · rcases gemmColumns_outputs _ _ _ _ _ _ _ hn' with
        ⟨i', j', hj⟩ | ⟨i', j', hj⟩ | ⟨i', hj⟩
      · exact Or.inr (Or.inl ⟨i', j', hj⟩)
      · exact Or.inr (Or.inr (Or.inl ⟨i', j', hj⟩))
      · exact Or.inr (Or.inr (Or.inr (Or.inl ⟨i', hj⟩)))
    · simp only [List.mem_singleton] at hn'
      subst hn'
      exact Or.inl rfl

theorem split_conv_edge_names (c : CNode) (H W : Nat) :
    ∀ n ∈ split_conv_into_chunks c H W, HasEmittedEdge c n := by
  intro n h
  unfold split_conv_into_chunks at h
  by_cases hc : (split_matrix_into_chunks c.matrix H W).length = 1 ∧
      ((split_matrix_into_chunks c.matrix H W).headD []).length = 1
  · rw [if_pos hc] at h
    simp only [List.mem_singleton] at h
    subst h
    exact Or.inl rfl
  · rw [if_neg hc] at h
    rw [List.mem_map] at h
    obtain ⟨n', hn', rfl⟩ := h
    rcases List.mem_cons.mp hn' with rfl | hn'
    · exact Or.inr (Or.inr (Or.inr (Or.inr (Or.inl rfl))))
    · rw [List.mem_append] at hn'
      rcases hn' with hn' | hn'
      · rcases convColumns_outputs _ _ _ _ _ _ hn' with
          ⟨i', j', hj⟩ | ⟨i', j', hj⟩ | ⟨i', hj⟩
        · exact Or.inr (Or.inl ⟨i', j', hj⟩)
        · exact Or.inr (Or.inr (Or.inl ⟨i', j', hj⟩))
        · exact Or.inr (Or.inr (Or.inr (Or.inl ⟨i', hj⟩)))
      · rcases List.mem_cons.mp hn' with rfl | hn'
        · exact Or.inr (Or.inr (Or.inr (Or.inr (Or.inr rfl))))
        · simp only [List.mem_singleton] at hn'
          subst hn'
          exact Or.inl rfl

/-- C9: emission is deterministic — the emitted node sequence is a pure
function of the original node's inputs, outputs, weight, bias, kernel and
stride (two original nodes agreeing on those but differing in any other
field produce identical sequences), and every emitted node writes either
the original node's outputs or a single edge named by a role suffix of the
original primary output identifier with the chunk indices. -/
theorem emission_deterministic (a b : CNode) (H W : Nat)
    (hin : a.inputs = b.inputs) (hout : a.outputs = b.outputs)
    (hm : a.matrix = b.matrix) (hb : a.biases = b.biases)
    (hk : a.kernel = b.kernel) (hs : a.strides = b.strides)
    (hsplit : ¬((split_matrix_into_chunks a.matrix H W).length = 1 ∧
      ((split_matrix_into_chunks a.matrix H W).headD []).length = 1)) :
    split_gemm_into_chunks a H W = split_gemm_into_chunks b H W ∧
    split_conv_into_chunks a H W = split_conv_into_chunks b H W ∧
    (∀ n ∈ split_gemm_into_chunks a H W, HasEmittedEdge a n) ∧
    (∀ n ∈ split_conv_into_chunks a H W, HasEmittedEdge a n) := by
  have hsplit2 : ¬((split_matrix_into_chunks b.matrix H W).length = 1 ∧
      ((split_matrix_into_chunks b.matrix H W).headD []).length = 1) := by
    rw [← hm]; exact hsplit
  refine ⟨?_, ?_, split_gemm_edge_names a H W, split_conv_edge_names a H W⟩
  · unfold split_gemm_into_chunks primaryOut
    rw [if_neg hsplit, if_neg hsplit2, hin, hout, hm, hb]
  · unfold split_conv_into_chunks primaryOut convFromType
    rw [if_neg hsplit, if_neg hsplit2, hin, hout, hm, hb, hk, hs]

/-- A concrete GEMM node for the determinism instance. -/
def c9a : CNode :=
  { kind := "gemm", inputs := ["X"], outputs := ["Y"],
    matrix := ⟨1, 3, [[1, 2, 3]]⟩, biases := some (.vec [1, 2, 3]) }

/-- The same payload as `c9a` but with every other field different. -/
def c9b : CNode :=
  { kind := "other", inputs := ["X"], outputs := ["Y"],
    matrix := ⟨1, 3, [[1, 2, 3]]⟩, biases := some (.vec [1, 2, 3]),
    strides := 1, ksize := 7, col_lim := [9, 9], axis := 5, channels := 3,
    from_type := "stale" }

/-- C9 witness: the two concrete nodes above, H = 2, W = 2 (2×1 grid). -/
theorem emission_deterministic_witness :
    split_gemm_into_chunks c9a 2 2 = split_gemm_into_chunks c9b 2 2 ∧
    split_conv_into_chunks c9a 2 2 = split_conv_into_chunks c9b 2 2 ∧
    (∀ n ∈ split_gemm_into_chunks c9a 2 2, HasEmittedEdge c9a n) ∧
    (∀ n ∈ split_conv_into_chunks c9a 2 2, HasEmittedEdge c9a n) :=
  emission_deterministic c9a c9b 2 2 rfl rfl rfl rfl rfl rfl (by decide)

/-! Window lowering: `toeplitzize_input` from `compute.py`. -/

/-- Shallow embedding of a numpy 3-d tensor with explicit shape; the input
of the transform is laid out (channels, height, width). -/
structure NPTensor3 where
  shape0 : Nat
  shape1 : Nat
  shape2 : Nat
  data : List (List (List Int))
deriving Repr, DecidableEq

/-- A tensor is well formed when its data has its declared shape. -/
def NPTensor3.WF (t : NPTensor3) : Prop :=
  t.data.length = t.shape0 ∧
  ∀ p ∈ t.data, p.length = t.shape1 ∧ ∀ row ∈ p, row.length = t.shape2

instance (t : NPTensor3) : Decidable t.WF := by
  unfold NPTensor3.WF; infer_instance

/-- Triple-nested indexing with defaults, the counterpart of numpy integer
indexing for in-range indices. -/
def get3 (d : List (List (List Int))) (a b c : Nat) : Int :=
  ((d.getD a []).getD b []).getD c 0

/-- `in_tensor.transpose(1,2,0)`: a (C,H,W) tensor becomes (H,W,C). -/
def transposeHWC (t : NPTensor3) : NPTensor3 :=
  ⟨t.shape1, t.shape2, t.shape0,
   (List.range t.shape1).map (fun h =>
     (List.range t.shape2).map (fun w =>
       (List.range t.shape0).map (fun c => get3 t.data c h w)))⟩

/-- `np.pad(tensor, ((1,1),(1,1),(0,0)), constant_values=zero_point)` on an
(H,W,C) tensor: one ring of zero-point pixels around height and width. -/
def padHW (t : NPTensor3) (zp : Int) : NPTensor3 :=
  ⟨t.shape0 + 2, t.shape1 + 2, t.shape2,
   List.replicate (t.shape1 + 2) (List.replicate t.shape2 zp) ::
     (t.data.map (fun row =>
       List.replicate t.shape2 zp :: (row ++ [List.replicate t.shape2 zp])) ++
      [List.replicate (t.shape1 + 2) (List.replicate t.shape2 zp)])⟩

/-- The window slice `matrix[r:r+3, c:c+3]` of an (H,W,C) tensor's data. -/
def windowSlice (r c : Nat) (d : List (List (List Int))) :
    List (List (List Int)) :=
  ((d.drop r).take 3).map (fun row => (row.drop c).take 3)

/-- Numpy `transpose(2,0,1)` of a (d0,d1,C) window slice into (C,d0,d1). -/
def transpose201 (C : Nat) (s : List (List (List Int))) :
    List (List (List Int)) :=
  (List.range C).map (fun ch =>
    (List.range s.length).map (fun dr =>
      (List.range (s.headD []).length).map (fun dc => get3 s dr dc ch)))

/-- The kernel-size-3 receptive field `matrix[r:r+3,c:c+3].transpose(2,0,1)`. -/
def recfieldCube (r c : Nat) (t : NPTensor3) : List (List (List Int)) :=
  transpose201 t.shape2 (windowSlice r c t.data)

/-- A receptive field: a channel vector for kernel size 1, a C×3×3 cube for
kernel size 3. -/
inductive RecField where
  | vec (v : List Int)
  | cube (c : List (List (List Int)))
deriving Repr, DecidableEq

/-- `get_recfield_for_pixel(r, c, matrix, ksize)` from `compute.py`: the
channel vector at the pixel for kernel size 1, the transposed 3×3 window
for kernel size 3, and no result (the Python function falls through
returning `None`) for any other kernel size. -/
def get_recfield_for_pixel (r c : Nat) (t : NPTensor3) (ksize : Nat) :
    Option RecField :=
  if ksize = 1 then
    some (.vec ((t.data.getD r []).getD c []))
  else if ksize = 3 then
    some (.cube (recfieldCube r c t))
  else none

/-- Row-major (channel-major) flattening of a receptive field. -/
def RecField.flat : RecField → List Int
  | .vec v => v
  | .cube c => c.flatten.flatten

/-- `recfield.transpose(1,2,0).flatten()`: the channel-minor flattening. -/
def RecField.flatMinor : RecField → List Int
  | .vec v => v
  | .cube c =>
      ((List.range (c.headD []).length).map (fun dr =>
        (List.range ((c.headD []).headD []).length).map (fun dc =>
          c.map (fun plane => (plane.getD dr []).getD dc 0)))).flatten.flatten

/-- The failure of the transform on a kernel size outside the supported set
(Python surfaces it as the attribute error on `None.flatten()`). -/
inductive ToeplitzError where
  | UnsupportedKernelSize
deriving Repr, DecidableEq

/-- The fill loop with Python's fail-fast exception behavior: the first
failing pixel aborts the whole transform. -/
def collectE {α : Type} (f : Nat → Except ToeplitzError α) :
    List Nat → Except ToeplitzError (List α)
  | [] => .ok []
  | i :: rest =>
    match f i with
    | .error e => .error e
    | .ok a =>
      match collectE f rest with
      | .error e => .error e
      | .ok tl => .ok (a :: tl)

/-- One output row: the (possibly channel-minor) flattened receptive field
of output pixel (r, c) read at `(strides*r, strides*c)`. -/
def toeplitzRow (tensor2 : NPTensor3) (ksize strides : Nat)
    (channel_minor : Bool) (r c : Nat) : Except ToeplitzError (List Int) :=
  match get_recfield_for_pixel (strides * r) (strides * c) tensor2 ksize with
  | none => .error .UnsupportedKernelSize
  | some rf => .ok (if channel_minor && ksize == 3 then rf.flatMinor else rf.flat)

/-- `toeplitzize_input(in_tensor, ksize, strides, channel_minor, zero_point)`
from `compute.py`: transpose (C,H,W) to (H,W,C), pad when the kernel size
is 3, and fill one flattened receptive field per output pixel into an
`(H*W, C*ksize²)` (or `(H*W, C)`) matrix. -/
def toeplitzize_input (in_tensor : NPTensor3) (ksize strides : Nat)
    (channel_minor : Bool) (zero_point : Int) :
    Except ToeplitzError NPMatrix :=
  match collectE (fun r =>
      collectE (fun c =>
          toeplitzRow
            (if ksize = 3 then padHW (transposeHWC in_tensor) zero_point
              else transposeHWC in_tensor) ksize strides channel_minor r c)
        (List.range ((transposeHWC in_tensor).shape1 / strides)))
    (List.range ((transposeHWC in_tensor).shape0 / strides)) with
  | .error e => .error e
  | .ok blocks =>
    .ok ⟨((transposeHWC in_tensor).shape0 / strides) *
          ((transposeHWC in_tensor).shape1 / strides),
         if ksize = 3 then (transposeHWC in_tensor).shape2 * 9
           else (transposeHWC in_tensor).shape2,
         blocks.flatten⟩

/-! GetD toolkit used by the window-lowering proofs. -/

theorem headD_eq_getD_zero {α : Type} (l : List α) (d : α) :
    l.headD d = l.getD 0 d := by
  cases l <;> rfl

theorem getD_drop {α : Type} (l : List α) (a i : Nat) (d : α) :
    (l.drop a).getD i d = l.getD (a + i) d := by
  rw [List.getD_eq_getElem?_getD, List.getD_eq_getElem?_getD, List.getElem?_drop]

theorem getD_take {α : Type} (l : List α) (n i : Nat) (d : α) (h : i < n) :
    (l.take n).getD i d = l.getD i d := by
  rw [List.getD_eq_getElem?_getD, List.getD_eq_getElem?_getD,
    List.getElem?_take_of_lt h]

theorem getD_map_of_lt {α β : Type} (f : α → β) (l : List α) (i : Nat)
    (d : β) (d' : α) (h : i < l.length) :
    (l.map f).getD i d = f (l.getD i d') := by
  rw [List.getD_eq_getElem?_getD, List.getD_eq_getElem?_getD,
    List.getElem?_map, List.getElem?_eq_getElem h]
  rfl

theorem getD_range (n i : Nat) (d : Nat) (h : i < n) :
    (List.range n).getD i d = i := by
  simp [List.getD_eq_getElem?_getD, List.getElem?_range, h]

theorem getD_map_range {α : Type} (f : Nat → α) (n i : Nat) (d : α)
    (h : i < n) :
    ((List.range n).map f).getD i d = f i := by
  rw [getD_map_of_lt f _ i d 0 (by simpa using h), getD_range _ _ _ h]

theorem getD_append_left {α : Type} (l l' : List α) (i : Nat) (d : α)
    (h : i < l.length) :
    (l ++ l').getD i d = l.getD i d := by
  simp [List.getD_eq_getElem?_getD, List.getElem?_append, h]

theorem getD_append_right {α : Type} (l l' : List α) (i : Nat) (d : α)
    (h : l.length ≤ i) :
    (l ++ l').getD i d = l'.getD (i - l.length) d := by
  have hn : ¬ i < l.length := by omega
  simp [List.getD_eq_getElem?_getD, List.getElem?_append, hn]

theorem getD_replicate_of_lt {α : Type} (n i : Nat) (x : α) (d : α)
    (h : i < n) :
    (List.replicate n x).getD i d = x := by
  simp [List.getD_eq_getElem?_getD, List.getElem?_replicate, h]

theorem collectE_ok {α : Type} (f : Nat → Except ToeplitzError α)
    (g : Nat → α) :
    ∀ l : List Nat, (∀ i ∈ l, f i = .ok (g i)) →
      collectE f l = .ok (l.map g) := by
  intro l
  induction l with
  | nil => intro _; rfl
  | cons i rest ih =>
    intro hall
    simp only [collectE, hall i (by simp),
      ih (fun j hj => hall j (by simp [hj])), List.map_cons]

/-- C8 (amended): for every kernel size outside {1, 3}, the transform fails
with the unsupported-kernel-size error on every input with at least one
output pixel (`shape1/strides ≥ 1` and `shape2/strides ≥ 1`); an input with
zero output pixels never reads a receptive field and successfully returns
an empty matrix instead. -/
theorem toeplitzize_unsupported_ksize (t : NPTensor3) (ksize strides : Nat)
    (cm : Bool) (zp : Int) (h1 : ksize ≠ 1) (h3 : ksize ≠ 3)
    (hH : 1 ≤ t.shape1 / strides) (hW : 1 ≤ t.shape2 / strides) :
    toeplitzize_input t ksize strides cm zp
      = .error .UnsupportedKernelSize := by
  have hrow : ∀ r c,
      toeplitzRow (if ksize = 3 then padHW (transposeHWC t) zp
          else transposeHWC t) ksize strides cm r c
        = .error .UnsupportedKernelSize := by
    intro r c
    unfold toeplitzRow get_recfield_for_pixel
    rw [if_neg h1, if_neg h3]
  have e0 : (transposeHWC t).shape0 = t.shape1 := rfl
  have e1 : (transposeHWC t).shape1 = t.shape2 := rfl
  obtain ⟨n, hn⟩ : ∃ n, t.shape1 / strides = n + 1 :=
    ⟨t.shape1 / strides - 1, by omega⟩
  obtain ⟨m, hm⟩ : ∃ m, t.shape2 / strides = m + 1 :=
    ⟨t.shape2 / strides - 1, by omega⟩
  unfold toeplitzize_input
  simp only [e0, e1, hn, hm, List.range_succ_eq_map]
  simp [collectE, hrow]

/-- A concrete 1×3×3 tensor. -/
def c8tensor : NPTensor3 := ⟨1, 3, 3, [[[1, 2, 3], [4, 5, 6], [7, 8, 9]]]⟩

/-- C8 counterexample: kernel size 2 with strides 4 on the 1×3×3 tensor
gives `3 // 4 = 0` output rows and columns, so both fill loops run zero
iterations, no receptive field is ever requested, and the transform
successfully returns the empty (0, 1) matrix — it does return a result,
with no error of any kind. -/
theorem toeplitzize_empty_loop_ok :
    toeplitzize_input c8tensor 2 4 false 0 = .ok ⟨0, 1, []⟩ := rfl

/-- C8 witness: kernel size 2 on the concrete tensor with stride 1 fails. -/
theorem toeplitzize_unsupported_ksize_witness :
    toeplitzize_input c8tensor 2 1 false 0
      = .error .UnsupportedKernelSize :=
  toeplitzize_unsupported_ksize c8tensor 2 1 false 0 (by decide) (by decide)
    (by decide) (by decide)

theorem transposeHWC_WF (t : NPTensor3) : (transposeHWC t).WF := by
  refine ⟨by simp [transposeHWC], ?_⟩
  intro p hp
  simp only [transposeHWC, List.mem_map] at hp
  obtain ⟨h, _, rfl⟩ := hp
  refine ⟨by simp [transposeHWC], ?_⟩
  intro row hrow
  simp only [List.mem_map] at hrow
  obtain ⟨w, _, rfl⟩ := hrow
  simp [transposeHWC]

theorem transposeHWC_get3 (t : NPTensor3) (h w ch : Nat)
    (hh : h < t.shape1) (hw : w < t.shape2) (hch : ch < t.shape0) :
    get3 (transposeHWC t).data h w ch = get3 t.data ch h w := by
  unfold transposeHWC get3
  rw [getD_map_range _ _ _ _ hh, getD_map_range _ _ _ _ hw,
    getD_map_range _ _ _ _ hch]

theorem padHW_WF (t : NPTensor3) (zp : Int) (h : t.WF) : (padHW t zp).WF := by
  obtain ⟨h0, h1⟩ := h
  refine ⟨by simp [padHW, h0], ?_⟩
  intro p hp
  simp only [padHW, List.mem_cons, List.mem_append, List.mem_map,
    List.mem_singleton] at hp
  rcases hp with rfl | ⟨row, hrow, rfl⟩ | rfl | h
  · refine ⟨by simp [padHW], ?_⟩
    intro r hr
    rw [List.eq_of_mem_replicate hr]
    simp [padHW]
  · obtain ⟨hlen, hrows⟩ := h1 row hrow
    refine ⟨by simp [padHW, hlen], ?_⟩
    intro r hr
    simp only [List.mem_cons, List.mem_append, List.mem_singleton] at hr
    rcases hr with rfl | hr | rfl | h
    · simp [padHW]
    · simp [padHW, hrows r hr]
    · simp [padHW]
    · simp at h
  · refine ⟨by simp [padHW], ?_⟩
    intro r hr
    rw [List.eq_of_mem_replicate hr]
    simp [padHW]
  · simp at h

theorem padHW_get3 (t : NPTensor3) (zp : Int) (hWF : t.WF) (a b ch : Nat)
    (ha : a ≤ t.shape0 + 1) (hb : b ≤ t.shape1 + 1) (hch : ch < t.shape2) :
    get3 (padHW t zp).data a b ch
      = if a = 0 ∨ t.shape0 < a ∨ b = 0 ∨ t.shape1 < b then zp
        else get3 t.data (a - 1) (b - 1) ch := by
  obtain ⟨h0, h1⟩ := hWF
  unfold padHW get3
  rcases Nat.eq_zero_or_pos a with ha0 | hapos
  · subst ha0
    rw [List.getD_cons_zero, getD_replicate_of_lt _ _ _ _ (by omega),
      getD_replicate_of_lt _ _ _ _ hch, if_pos (by omega)]
  · obtain ⟨a', rfl⟩ : ∃ a', a = a' + 1 := ⟨a - 1, by omega⟩
    rw [List.getD_cons_succ]
    by_cases hlast : a' = t.shape0
    · subst hlast
      rw [getD_append_right _ _ _ _ (by simp [h0])]
      simp only [List.length_map, h0, Nat.sub_self]
      rw [List.getD_cons_zero, getD_replicate_of_lt _ _ _ _ (by omega),
        getD_replicate_of_lt _ _ _ _ hch, if_pos (by omega)]
    · have ha'lt : a' < t.shape0 := by omega
      rw [getD_append_left _ _ _ _ (by simp [h0]; omega),
        getD_map_of_lt _ _ _ _ [] (by rw [h0]; exact ha'lt)]
      have hrowlen : (t.data.getD a' []).length = t.shape1 := by
        have hmem : t.data.getD a' [] ∈ t.data := by
          rw [List.getD_eq_getElem?_getD,
            List.getElem?_eq_getElem (by rw [h0]; exact ha'lt)]
          exact List.getElem_mem ..
        exact (h1 _ hmem).1
      rcases Nat.eq_zero_or_pos b with hb0 | hbpos
      · subst hb0
        rw [List.getD_cons_zero, getD_replicate_of_lt _ _ _ _ hch,
          if_pos (by omega)]
      · obtain ⟨b', rfl⟩ : ∃ b', b = b' + 1 := ⟨b - 1, by omega⟩
        rw [List.getD_cons_succ]
        by_cases hblast : b' = t.shape1
        · subst hblast
          rw [getD_append_right _ _ _ _ (le_of_eq hrowlen)]
          rw [hrowlen, Nat.sub_self]
          rw [List.getD_cons_zero, getD_replicate_of_lt _ _ _ _ hch,
            if_pos (by omega)]
        · have hb'lt : b' < t.shape1 := by omega
          rw [getD_append_left _ _ _ _ (by rw [hrowlen]; exact hb'lt),
            if_neg (by omega)]
          simp [get3, Nat.add_sub_cancel]

theorem windowSlice_length (d : List (List (List Int))) (r c n : Nat)
    (h0 : d.length = n) (hr : r + 3 ≤ n) :
    (windowSlice r c d).length = 3 := by
  simp [windowSlice, List.length_take, List.length_drop, h0]
  omega

theorem windowSlice_getD (d : List (List (List Int))) (r c n i : Nat)
    (h0 : d.length = n) (hr : r + 3 ≤ n) (hi : i < 3) :
    (windowSlice r c d).getD i [] = ((d.getD (r + i) []).drop c).take 3 := by
  unfold windowSlice
  rw [getD_map_of_lt _ _ _ _ []
      (by simp [List.length_take, List.length_drop, h0]; omega),
    getD_take _ _ _ _ hi, getD_drop]

theorem flatten_getD_uniform {α : Type} :
    ∀ (L : List (List α)) (n i j : Nat) (d : α), (∀ x ∈ L, x.length = n) →
      i < L.length → j < n →
      L.flatten.getD (i * n + j) d = (L.getD i []).getD j d := by
  intro L
  induction L with
  | nil =>
    intro n i j d _ hi
    simp at hi
  | cons x rest ih =>
    intro n i j d hall hi hj
    have hx : x.length = n := hall x (by simp)
    cases i with
    | zero =>
      rw [List.flatten_cons, Nat.zero_mul, Nat.zero_add,
        getD_append_left _ _ _ _ (by rw [hx]; exact hj), List.getD_cons_zero]
    | succ i' =>
      rw [List.flatten_cons]
      have hidx : (i' + 1) * n + j = x.length + (i' * n + j) := by
        rw [hx]; ring
      rw [hidx, getD_append_right _ _ _ _ (by omega),
        Nat.add_sub_cancel_left, List.getD_cons_succ]
      exact ih n i' j d (fun y hy => hall y (by simp [hy]))
        (by simpa using hi) hj

theorem flatten_length_uniform {α : Type} :
    ∀ (L : List (List α)) (n : Nat), (∀ x ∈ L, x.length = n) →
      L.flatten.length = L.length * n := by
  intro L
  induction L with
  | nil => intro n _; simp
  | cons x rest ih =>
    intro n hall
    rw [List.flatten_cons, List.length_append, hall x (by simp),
      ih n (fun y hy => hall y (by simp [hy]))]
    simp [List.length_cons]
    ring

theorem recfieldCube_struct (p : NPTensor3) (hWF : p.WF) (r c : Nat)
    (hr : r + 3 ≤ p.shape0) (hc : c + 3 ≤ p.shape1) :
    (recfieldCube r c p).length = p.shape2 ∧
    (∀ x ∈ recfieldCube r c p, x.length = 3) ∧
    (∀ x ∈ recfieldCube r c p, ∀ y ∈ x, y.length = 3) := by
  obtain ⟨h0, h1⟩ := hWF
  have hslen : (windowSlice r c p.data).length = 3 :=
    windowSlice_length p.data r c p.shape0 h0 hr
  have hhead : ((windowSlice r c p.data).headD []).length = 3 := by
    rw [headD_eq_getD_zero,
      windowSlice_getD p.data r c p.shape0 0 h0 hr (by omega)]
    have hmem : p.data.getD (r + 0) [] ∈ p.data := by
      rw [List.getD_eq_getElem?_getD,
        List.getElem?_eq_getElem (by rw [h0]; omega)]
      exact List.getElem_mem ..
    have hlen := (h1 _ hmem).1
    rw [List.length_take, List.length_drop, hlen]
    omega
  refine ⟨by simp [recfieldCube, transpose201], ?_, ?_⟩
  · intro x hx
    simp only [recfieldCube, transpose201, List.mem_map] at hx
    obtain ⟨ch, _, rfl⟩ := hx
    rw [List.length_map, List.length_range]
    exact hslen
  · intro x hx y hy
    simp only [recfieldCube, transpose201, List.mem_map] at hx
    obtain ⟨ch, _, rfl⟩ := hx
    simp only [List.mem_map] at hy
    obtain ⟨dr, _, rfl⟩ := hy
    rw [List.length_map, List.length_range]
    exact hhead

theorem recfieldCube_get3 (p : NPTensor3) (hWF : p.WF) (r c ch dr dc : Nat)
    (hr : r + 3 ≤ p.shape0) (hc : c + 3 ≤ p.shape1) (hch : ch < p.shape2)
    (hdr : dr < 3) (hdc : dc < 3) :
    get3 (recfieldCube r c p) ch dr dc = get3 p.data (r + dr) (c + dc) ch := by
  obtain ⟨h0, h1⟩ := hWF
  have hslen : (windowSlice r c p.data).length = 3 :=
    windowSlice_length p.data r c p.shape0 h0 hr
  have hhead : ((windowSlice r c p.data).headD []).length = 3 := by
    rw [headD_eq_getD_zero,
      windowSlice_getD p.data r c p.shape0 0 h0 hr (by omega)]
    have hmem : p.data.getD (r + 0) [] ∈ p.data := by
      rw [List.getD_eq_getElem?_getD,
        List.getElem?_eq_getElem (by rw [h0]; omega)]
      exact List.getElem_mem ..
    have hlen := (h1 _ hmem).1
    rw [List.length_take, List.length_drop, hlen]
    omega
  unfold recfieldCube transpose201
  unfold get3
  rw [getD_map_range _ _ _ _ hch,
    getD_map_range _ _ _ _ (by rw [hslen]; exact hdr),
    getD_map_range _ _ _ _ (by rw [hhead]; exact hdc)]
  rw [windowSlice_getD p.data r c p.shape0 dr h0 hr hdr,
    getD_take _ _ _ _ hdc, getD_drop]

theorem cubeFlat_getD (cube : List (List (List Int))) (C ch dr dc : Nat)
    (hlen : cube.length = C) (h2 : ∀ x ∈ cube, x.length = 3)
    (h3 : ∀ x ∈ cube, ∀ y ∈ x, y.length = 3)
    (hch : ch < C) (hdr : dr < 3) (hdc : dc < 3) :
    cube.flatten.flatten.getD (ch * 9 + dr * 3 + dc) 0
      = get3 cube ch dr dc := by
  have hidx : ch * 9 + dr * 3 + dc = (ch * 3 + dr) * 3 + dc := by ring
  have hflat : ∀ y ∈ cube.flatten, y.length = 3 := by
    intro y hy
    rw [List.mem_flatten] at hy
    obtain ⟨x, hx, hyx⟩ := hy
    exact h3 x hx y hyx
  have hflen : cube.flatten.length = C * 3 := by
    rw [flatten_length_uniform _ 3 h2, hlen]
  rw [hidx, flatten_getD_uniform _ 3 _ _ _ hflat
      (by rw [hflen]; calc ch * 3 + dr < ch * 3 + 3 := by omega
        _ = (ch + 1) * 3 := by ring
        _ ≤ C * 3 := Nat.mul_le_mul_right 3 (by omega)) hdc,
    flatten_getD_uniform _ 3 _ _ _ h2 (by rw [hlen]; exact hch) hdr]
  rfl

/-- C6: for kernel size 3 with stride 1 and channel-major layout, the
transform pads the (C,H,W) input by one on height and width with the
supplied zero-point, flattens every 3×3×C receptive field into one row,
and returns an (H*W, C*9) matrix: row r*W+c holds at position
ch*9 + dr*3 + dc the zero-point where the window leaves the input, and the
input entry (ch, r+dr-1, c+dc-1) otherwise — so with zero_point = 128 every
border row carries 128 exactly at its out-of-bounds receptive-field
positions. -/
theorem toeplitzize3_spec (t : NPTensor3) (zp : Int) (hWF : t.WF) :
    ∃ M, toeplitzize_input t 3 1 false zp = .ok M ∧
      M.shape0 = t.shape1 * t.shape2 ∧ M.shape1 = t.shape0 * 9 ∧
      M.data.length = t.shape1 * t.shape2 ∧
      (∀ row ∈ M.data, row.length = t.shape0 * 9) ∧
      (∀ r c ch dr dc, r < t.shape1 → c < t.shape2 → ch < t.shape0 →
        dr < 3 → dc < 3 →
        (M.data.getD (r * t.shape2 + c) []).getD (ch * 9 + dr * 3 + dc) 0
          = if r + dr = 0 ∨ t.shape1 < r + dr ∨ c + dc = 0 ∨ t.shape2 < c + dc
            then zp
            else get3 t.data ch (r + dr - 1) (c + dc - 1)) := by
  have hTWF := transposeHWC_WF t
  have hPWF := padHW_WF (transposeHWC t) zp hTWF
  have e0 : (transposeHWC t).shape0 = t.shape1 := rfl
  have e1 : (transposeHWC t).shape1 = t.shape2 := rfl
  have e2 : (transposeHWC t).shape2 = t.shape0 := rfl
  have hrow : ∀ r c, toeplitzRow (padHW (transposeHWC t) zp) 3 1 false r c
      = .ok ((recfieldCube r c (padHW (transposeHWC t) zp)).flatten.flatten) := by
    intro r c
    simp [toeplitzRow, get_recfield_for_pixel, RecField.flat]
  have hinner : ∀ r,
      collectE (fun c => toeplitzRow (padHW (transposeHWC t) zp) 3 1 false r c)
        (List.range t.shape2)
      = .ok ((List.range t.shape2).map (fun c =>
          (recfieldCube r c (padHW (transposeHWC t) zp)).flatten.flatten)) :=
    fun r => collectE_ok _ _ _ (fun c _ => hrow r c)
  have houter :
      collectE (fun r =>
        collectE (fun c => toeplitzRow (padHW (transposeHWC t) zp) 3 1 false r c)
          (List.range t.shape2))
        (List.range t.shape1)
      = .ok ((List.range t.shape1).map (fun r => (List.range t.shape2).map
          (fun c =>
            (recfieldCube r c (padHW (transposeHWC t) zp)).flatten.flatten))) :=
    collectE_ok _ _ _ (fun r _ => hinner r)
  have hmain : toeplitzize_input t 3 1 false zp
      = .ok ⟨t.shape1 * t.shape2, t.shape0 * 9,
          ((List.range t.shape1).map (fun r => (List.range t.shape2).map
            (fun c =>
              (recfieldCube r c
                (padHW (transposeHWC t) zp)).flatten.flatten))).flatten⟩ := by
    unfold toeplitzize_input
    simp only [e0, e1, e2, Nat.div_one, eq_self_iff_true, if_true]
    rw [houter]
  refine ⟨_, hmain, rfl, rfl, ?_, ?_, ?_⟩
  · have hblocks : ∀ x ∈ (List.range t.shape1).map (fun r =>
        (List.range t.shape2).map (fun c =>
          (recfieldCube r c (padHW (transposeHWC t) zp)).flatten.flatten)),
        x.length = t.shape2 := by
      intro x hx
      simp only [List.mem_map] at hx
      obtain ⟨r, _, rfl⟩ := hx
      simp
    rw [flatten_length_uniform _ _ hblocks, List.length_map, List.length_range]
  · intro row hrow2
    rw [List.mem_flatten] at hrow2
    obtain ⟨x, hx, hrx⟩ := hrow2
    simp only [List.mem_map] at hx
    obtain ⟨r, hr, rfl⟩ := hx
    simp only [List.mem_map] at hrx
    obtain ⟨c, hc, rfl⟩ := hrx
    rw [List.mem_range] at hr hc
    obtain ⟨hcl, hc2, hc3⟩ := recfieldCube_struct (padHW (transposeHWC t) zp)
      hPWF r c (by show r + 3 ≤ t.shape1 + 2; omega)
      (by show c + 3 ≤ t.shape2 + 2; omega)
    have hf1 : ∀ y ∈ (recfieldCube r c (padHW (transposeHWC t) zp)).flatten,
        y.length = 3 := by
      intro y hy
      rw [List.mem_flatten] at hy
      obtain ⟨x, hx2, hyx⟩ := hy
      exact hc3 x hx2 y hyx
    rw [flatten_length_uniform _ 3 hf1, flatten_length_uniform _ 3 hc2, hcl]
    show t.shape0 * 3 * 3 = t.shape0 * 9
    ring
  · intro r c ch dr dc hr hc hch hdr hdc
    have hblocks : ∀ x ∈ (List.range t.shape1).map (fun r =>
        (List.range t.shape2).map (fun c =>
          (recfieldCube r c (padHW (transposeHWC t) zp)).flatten.flatten)),
        x.length = t.shape2 := by
      intro x hx
      simp only [List.mem_map] at hx
      obtain ⟨r', _, rfl⟩ := hx
      simp
    rw [flatten_getD_uniform _ t.shape2 r c [] hblocks
        (by simp [hr]) hc,
      getD_map_range _ _ _ _ hr, getD_map_range _ _ _ _ hc]
    obtain ⟨hcl, hc2, hc3⟩ := recfieldCube_struct (padHW (transposeHWC t) zp)
      hPWF r c (by show r + 3 ≤ t.shape1 + 2; omega)
      (by show c + 3 ≤ t.shape2 + 2; omega)
    rw [cubeFlat_getD _ t.shape0 ch dr dc hcl hc2 hc3 hch hdr hdc,
      recfieldCube_get3 (padHW (transposeHWC t) zp) hPWF r c ch dr dc
        (by show r + 3 ≤ t.shape1 + 2; omega)
        (by show c + 3 ≤ t.shape2 + 2; omega) hch hdr hdc,
      padHW_get3 (transposeHWC t) zp hTWF (r + dr) (c + dc) ch
        (by show r + dr ≤ t.shape1 + 1; omega)
        (by show c + dc ≤ t.shape2 + 1; omega) hch]
    simp only [e0, e1]
    by_cases hOOB : r + dr = 0 ∨ t.shape1 < r + dr ∨ c + dc = 0 ∨
        t.shape2 < c + dc
    · rw [if_pos hOOB, if_pos hOOB]
    · rw [if_neg hOOB, if_neg hOOB]
      exact transposeHWC_get3 t _ _ _ (by omega) (by omega) hch

/-- C6 witness: the concrete 1×3×3 tensor with zero-point 128. -/
theorem toeplitzize3_spec_witness :
    ∃ M, toeplitzize_input c8tensor 3 1 false 128 = .ok M ∧
      M.shape0 = c8tensor.shape1 * c8tensor.shape2 ∧
      M.shape1 = c8tensor.shape0 * 9 ∧
      M.data.length = c8tensor.shape1 * c8tensor.shape2 ∧
      (∀ row ∈ M.data, row.length = c8tensor.shape0 * 9) ∧
      (∀ r c ch dr dc, r < c8tensor.shape1 → c < c8tensor.shape2 →
        ch < c8tensor.shape0 → dr < 3 → dc < 3 →
        (M.data.getD (r * c8tensor.shape2 + c) []).getD
            (ch * 9 + dr * 3 + dc) 0
          = if r + dr = 0 ∨ c8tensor.shape1 < r + dr ∨ c + dc = 0 ∨
              c8tensor.shape2 < c + dc
            then 128
            else get3 c8tensor.data ch (r + dr - 1) (c + dc - 1)) :=
  toeplitzize3_spec c8tensor 128 (by decide)

end HwAcc
